import Mathlib

/-!
Shallow embedding of the rocksdb-client access layer (src/lib.rs, src/errors.rs).

Collections (column families) are modelled as association lists of raw-byte
keys and values kept in iterator order, i.e. ascending lexicographic order on
raw key bytes, which is the order the engine's iterator yields.  External
collaborators (the LSM engine, the MessagePack codec, the serde-JSON
conversion and the JSONPath engine) are modelled as explicit parameters or as
small pure primitives mirroring their documented contracts; everything else is
translated from the repository source.  A Rust operation that can panic is
modelled with an outer Option, none standing for the panic.
-/

namespace RocksDBClient

/-- Boolean equality test on Except, used to decide equations on results. -/
def exceptBeq {ε α : Type} [DecidableEq ε] [DecidableEq α] :
    Except ε α → Except ε α → Bool
| .ok a, .ok b => decide (a = b)
| .error e, .error f => decide (e = f)
| _, _ => false

instance {ε α : Type} [DecidableEq ε] [DecidableEq α] : DecidableEq (Except ε α) :=
fun x y => decidable_of_iff (exceptBeq x y = true) (by
  cases x <;> cases y <;> simp [exceptBeq])

/-- Raw byte strings (Rust Vec of u8); each list element stands for one byte. -/
abbrev Bytes := List Nat

/-- Iteration direction, mirroring rocksdb::Direction as re-exported by lib.rs. -/
inductive Direction
| Forward
| Reverse
deriving DecidableEq

/-- Error taxonomy, mirroring KvStoreError in src/errors.rs.  Message payloads
are strings as in the source; the KeyNotFound payload carries the key (a raw
byte string in this model, the UTF-8 image of the argument string). -/
inductive Err
| DbError (msg : String)
| SerializationError (msg : String)
| DeserializationError (msg : String)
| KeyNotFound (key : Bytes)
| InvalidColumnFamily (name : String)
| IoError (msg : String)
| PropertyAccessError (msg : String)
| InvalidQuery (msg : String)
deriving DecidableEq

/-- A pluggable codec, mirroring the ByteSerializer trait: both directions can
fail with a message (mapped to SerializationError / DeserializationError). -/
structure Serializer (V : Type) where
serialize : V → Except String Bytes
deserialize : Bytes → Except String V

/-- The contents of one column family in iterator order (ascending raw key
bytes), as the engine's iterator materializes them. -/
abbrev Entries := List (Bytes × Bytes)

/-- Engine point lookup in a column family, mirroring db.get_cf. -/
def lookupKey : Entries → Bytes → Option Bytes
| [], _ => none
| (k, v) :: rest, key => if k = key then some v else lookupKey rest key

/-- Strict lexicographic order on raw keys, byte by byte: the engine's default
key comparator. -/
def lexLt : Bytes → Bytes → Bool
| [], [] => false
| [], _ :: _ => true
| _ :: _, [] => false
| a :: as, b :: bs => if a < b then true else if b < a then false else lexLt as bs

/-- Engine put into a column family kept in ascending key order: insert or
replace, preserving iterator order (mirrors db.put_cf / put on the engine's
sorted keyspace). -/
def putEntry (key val : Bytes) : Entries → Entries
| [] => [(key, val)]
| (k, v) :: rest =>
  if key = k then (key, val) :: rest
  else if lexLt key k then (key, val) :: (k, v) :: rest
  else (k, v) :: putEntry key val rest

/-- The opened database: the named column families with their contents. -/
structure DBState where
cfs : List (String × Entries)
deriving DecidableEq

/-- Column-family catalog lookup by name. -/
def findCf : List (String × Entries) → String → Option Entries
| [], _ => none
| (n, e) :: rest, cf => if n = cf then some e else findCf rest cf

/-- Mirror of cf_handle: resolve a column family or fail. -/
def cfHandle (st : DBState) (cf : String) : Option Entries :=
findCf st.cfs cf

/-- Replace the contents of one column family in the catalog. -/
def setCf : List (String × Entries) → String → Entries → List (String × Entries)
| [], cf, ents => [(cf, ents)]
| (n, e) :: rest, cf, ents =>
  if n = cf then (cf, ents) :: rest else (n, e) :: setCf rest cf ents

/-- The database after one column family's contents changed. -/
def updateCf (st : DBState) (cf : String) (ents : Entries) : DBState :=
⟨setCf st.cfs cf ents⟩

/-- Contents of the default column family (always present in an opened DB). -/
def defaultCf (st : DBState) : Entries :=
(cfHandle st "default").getD []

/-- Mirror of save: raw put on the default column family. -/
def save (st : DBState) (k v : Bytes) : DBState × Except Err Unit :=
(updateCf st "default" (putEntry k v (defaultCf st)), .ok ())

/-- Mirror of find: raw get on the default column family. -/
def find (st : DBState) (k : Bytes) : Except Err (Option Bytes) :=
.ok (lookupKey (defaultCf st) k)

/-- Mirror of delete: raw engine delete on the default column family.  The
engine write succeeds whether or not the key is present; no existence check
is performed. -/
def delete (st : DBState) (k : Bytes) : DBState × Except Err Unit :=
(updateCf st "default" ((defaultCf st).filter (fun p => decide (p.1 ≠ k))), .ok ())

/-- Mirror of get: find, KeyNotFound on absence, then deserialize. -/
def get {V : Type} (ser : Serializer V) (st : DBState) (k : Bytes) : Except Err V :=
match find st k with
| .error e => .error e
| .ok none => .error (.KeyNotFound k)
| .ok (some bytes) =>
  match ser.deserialize bytes with
  | .error e => .error (.DeserializationError e)
  | .ok v => .ok v

/-- Mirror of insert: serialize through the codec, then save. -/
def insert {V : Type} (ser : Serializer V) (st : DBState) (k : Bytes) (v : V) :
    DBState × Except Err Unit :=
match ser.serialize v with
| .error e => (st, .error (.SerializationError e))
| .ok bytes => save st k bytes

/-- Mirror of delete_cf: resolve the handle, read the key first, fail with
KeyNotFound when it is absent, and only then delete. -/
def deleteCf (st : DBState) (cf : String) (k : Bytes) : DBState × Except Err Unit :=
match cfHandle st cf with
| none => (st, .error (.InvalidColumnFamily cf))
| some ents =>
  match lookupKey ents k with
  | none => (st, .error (.KeyNotFound k))
  | some _ => (updateCf st cf (ents.filter (fun p => decide (p.1 ≠ k))), .ok ())

/-- Model of Rust str::parse for usize on a 64-bit target: an optional leading
plus sign, then one or more ASCII digits; anything else fails, and so does a
value that overflows 64 bits. -/
def parseUsize (s : String) : Option Nat :=
let cs := match s.toList with
  | '+' :: rest => rest
  | cs => cs
if cs = [] then none
else if cs.all Char.isDigit then
  let n := cs.foldl (fun acc c => acc * 10 + (c.toNat - 48)) 0
  if n < 2 ^ 64 then some n else none
else none

/-- Rust slice indexing v[a..b] with an Option result: none models the panic
raised when a exceeds b or b exceeds the length. -/
def rustSlice {α : Type} (v : List α) (a b : Nat) : Option (List α) :=
if a ≤ b ∧ b ≤ v.length then some ((v.drop a).take (b - a)) else none

/-- The ordinal window computed by get_range_cf (lib.rs lines 457-469): parse
from and to with their defaults, clamp, then slice the collected key list.
The increment to_idx + 1 is a usize addition, so it is taken modulo 2^64: at
to_idx = 2^64 - 1 a release build wraps the end to 0 (a debug build would
abort on the overflow itself; the model uses the release wrapping semantics).
none models the slice panic. -/
def rangeWindow (allKeys : List Bytes) (fromStr toStr : String) : Option (List Bytes) :=
let fromIdx := (parseUsize fromStr).getD 0
let toIdx := (parseUsize toStr).getD allKeys.length
let fromIdx' := min fromIdx allKeys.length
let toIdx' := min ((toIdx + 1) % 2 ^ 64) allKeys.length
rustSlice allKeys fromIdx' toIdx'

/-- The fetch loop of get_range_cf: re-read each selected key through get_cf,
skip a key that has gone missing, deserialize each value, and fail the whole
call on the first decode error. -/
def fetchValues {V : Type} (ser : Serializer V) (ents : Entries) :
    List Bytes → Except Err (List V)
| [] => .ok []
| k :: ks =>
  match lookupKey ents k with
  | none => fetchValues ser ents ks
  | some bytes =>
    match ser.deserialize bytes with
    | .error e => .error (.DeserializationError e)
    | .ok v =>
      match fetchValues ser ents ks with
      | .error e => .error e
      | .ok vs => .ok (v :: vs)

/-- Mirror of get_range_cf (values-only variant): collect every key in iterator
order, compute the ordinal window, orient it by direction, then fetch at most
limit values.  The outer Option models the slice panic. -/
def getRangeCf {V : Type} (ser : Serializer V) (st : DBState) (cf : String)
    (fromStr toStr : String) (limit : Nat) (direction : Direction) :
    Option (Except Err (List V)) :=
match cfHandle st cf with
| none => some (.error (.InvalidColumnFamily cf))
| some ents =>
  let allKeys := ents.map (fun p => p.1)
  match rangeWindow allKeys fromStr toStr with
  | none => none
  | some window =>
    let keysToFetch := match direction with
      | .Forward => window
      | .Reverse => window.reverse
    some (fetchValues ser ents (keysToFetch.take limit))

/-- Mirror of the engine's SstFileWriter fed by create_backup's loop: puts are
accepted only in strictly ascending key order (the writer errors otherwise);
the result is the finished file's record list. -/
def sstPuts (prev : Option Bytes) : List (Bytes × Bytes) → Except Err (List (Bytes × Bytes))
| [] => .ok []
| (k, v) :: rest =>
  match prev with
  | some p =>
    if lexLt p k then
      match sstPuts (some k) rest with
      | .error e => .error e
      | .ok file => .ok ((k, v) :: file)
    else .error (.DbError "Keys must be added in order")
  | none =>
    match sstPuts (some k) rest with
    | .error e => .error e
    | .ok file => .ok ((k, v) :: file)

/-- Mirror of create_backup: resolve the handle, iterate the collection from
the start and stream every pair into the SST writer; the result is the file's
contents. -/
def createBackup (st : DBState) (cf : String) : Except Err (List (Bytes × Bytes)) :=
match cfHandle st cf with
| none => .error (.InvalidColumnFamily cf)
| some ents => sstPuts none ents

/-- Mirror of the engine's ingest_external_file primitive as used by
restore_backup: every record of the file lands in the collection, the file's
value winning on key collision. -/
def ingestFile (ents : Entries) (file : List (Bytes × Bytes)) : Entries :=
file.foldl (fun acc p => putEntry p.1 p.2 acc) ents

/-- Mirror of restore_backup: resolve the target handle and ingest the file. -/
def restoreBackup (st : DBState) (cf : String) (file : List (Bytes × Bytes)) :
    Except Err DBState :=
match cfHandle st cf with
| none => .error (.InvalidColumnFamily cf)
| some ents => .ok (updateCf st cf (ingestFile ents file))

/-- Rust Vec::swap_remove at index i: remove the element at i by moving the
last element into its place. -/
def swapRemove {α : Type} (l : List α) (i : Nat) : List α :=
match l.getLast? with
| none => []
| some last => (l.set i last).dropLast

/-- The inner scan of query_cf's match loop: the first remaining document index
whose JSON image equals the matched value. -/
def findMatchIdx {V J : Type} [DecidableEq J] (m : J) : List (J × V) → Option Nat
| [] => none
| p :: rest => if p.1 = m then some 0 else (findMatchIdx m rest).map (· + 1)

/-- The match-consumption loop of query_cf: for each matched JSON value take
the first remaining document with an equal JSON image, removing it (and its
JSON image) with swap_remove. -/
def selectMatches {V J : Type} [DecidableEq J] : List J → List (J × V) → List V
| [], _ => []
| m :: ms, docs =>
  match findMatchIdx m docs with
  | none => selectMatches ms docs
  | some i =>
    match docs.get? i with
    | none => selectMatches ms docs
    | some p => p.2 :: selectMatches ms (swapRemove docs i)

/-- The collection pass of query_cf: deserialize every record and convert it to
JSON, in iterator order, before the query string is ever examined.  A decode
failure is a DeserializationError, a JSON conversion failure a
SerializationError, exactly as in the source. -/
def collectDocs {V J : Type} (ser : Serializer V) (toJson : V → Except String J) :
    Entries → Except Err (List (J × V))
| [] => .ok []
| (_, bytes) :: rest =>
  match ser.deserialize bytes with
  | .error e => .error (.DeserializationError e)
  | .ok v =>
    match toJson v with
    | .error e => .error (.SerializationError e)
    | .ok j =>
      match collectDocs ser toJson rest with
      | .error e => .error e
      | .ok docs => .ok ((j, v) :: docs)

/-- Mirror of query_cf: materialize the whole collection (decode plus JSON
conversion), only then hand the materialized array and the query string to the
JSONPath engine (an external collaborator passed as a function), and finally
consume the matches. -/
def queryCf {V J : Type} [DecidableEq J]
    (engine : List J → String → Except String (List J))
    (ser : Serializer V) (toJson : V → Except String J)
    (st : DBState) (cf : String) (query : String) : Except Err (List V) :=
match cfHandle st cf with
| none => .error (.InvalidColumnFamily cf)
| some ents =>
  match collectDocs ser toJson ents with
  | .error e => .error e
  | .ok docs =>
    match engine (docs.map (fun p => p.1)) query with
    | .error e => .error (.InvalidQuery ("JSONPath error: " ++ e))
    | .ok matched => .ok (selectMatches matched docs)

/-- The window selection as §4.3 of the spec words it, adjusted for the usize
increment: parse the two positions with their defaults (unparseable from
becomes 0, unparseable to becomes one past the last key), clamp to the
collection size, and take the half-open ordinal range from the clamped from to
the clamped to plus one, the increment taken in wrapping 64-bit arithmetic as
the code computes it. -/
def specWindow (allKeys : List Bytes) (fromStr toStr : String) : List Bytes :=
let f := (parseUsize fromStr).getD 0
let t := (parseUsize toStr).getD allKeys.length
let f' := min f allKeys.length
let e := min ((t + 1) % 2 ^ 64) allKeys.length
(allKeys.drop f').take (e - f')

/-- A concrete codec for witnesses: a number is stored as a one-byte list,
anything else fails to decode. -/
def natSer : Serializer Nat :=
⟨fun n => .ok [n], fun b => match b with | [n] => .ok n | _ => .error "bad msgpack"⟩

/-- A concrete four-record collection named c with ascending one-byte keys. -/
def stFour : DBState :=
⟨[("c", [([48], [1]), ([49], [2]), ([50], [3]), ([51], [4])])]⟩

/-- A collection holding one record whose value bytes do not decode. -/
def stBad : DBState :=
⟨[("c", [([0], [])])]⟩

/-- An empty target collection named b for the restore witnesses. -/
def stEmptyB : DBState :=
⟨[("b", [])]⟩

/-- Identity JSON image on numbers (an injective conversion). -/
def toJsonId : Nat → Except String Nat :=
fun n => .ok n

/-- A JSON image collapsing numbers by parity (a non-injective conversion). -/
def toJsonMod2 : Nat → Except String Nat :=
fun n => .ok (n % 2)

/-- A JSONPath engine knowing only the root wildcard, which selects every
element of the array in order. -/
def starEngine : List Nat → String → Except String (List Nat) :=
fun arr q => if q = "$[*]" then .ok arr else .error "Unsupported"

/-- A JSONPath engine rejecting every query string: the model of a malformed
expression. -/
def rejectEngine : List Nat → String → Except String (List Nat) :=
fun _ _ => .error "parse error"

theorem lexLt_irrefl : ∀ l : Bytes, lexLt l l = false
| [] => rfl
| a :: as => by simp [lexLt, lexLt_irrefl as]

theorem lexLt_asymm : ∀ a b : Bytes, lexLt a b = true → lexLt b a = false := by
intro a
induction a with
| nil => intro b; cases b <;> simp [lexLt]
| cons x xs ih =>
  intro b
  cases b with
  | nil => simp [lexLt]
  | cons y ys =>
    simp only [lexLt]
    by_cases hxy : x < y
    · have hyx : ¬ y < x := Nat.lt_asymm hxy
      simp [hxy, hyx]
    · by_cases hyx : y < x
      · simp [hxy, hyx]
      · simp [hxy, hyx]
        exact ih ys

theorem lookupKey_filter_none (k : Bytes) (f : Bytes × Bytes → Bool)
    (hf : ∀ p, p.1 = k → f p = false) :
    ∀ ents : Entries, lookupKey (ents.filter f) k = none := by
intro ents
induction ents with
| nil => rfl
| cons p rest ih =>
  rw [List.filter_cons]
  cases hfp : f p with
  | false => simpa [hfp] using ih
  | true =>
    have hne : p.1 ≠ k := by
      intro hh
      rw [hf p hh] at hfp
      exact Bool.noConfusion hfp
    simp [hfp, lookupKey, hne, ih]

theorem findCf_setCf_self (l : List (String × Entries)) (cf : String) (e : Entries) :
    findCf (setCf l cf e) cf = some e := by
induction l with
| nil => simp [setCf, findCf]
| cons p rest ih =>
  obtain ⟨n, pe⟩ := p
  by_cases h : n = cf
  · simp [setCf, findCf, h]
  · simp [setCf, findCf, h, ih]

theorem lookupKey_putEntry_self (k v : Bytes) (ents : Entries) :
    lookupKey (putEntry k v ents) k = some v := by
induction ents with
| nil => simp [putEntry, lookupKey]
| cons p rest ih =>
  obtain ⟨k', v'⟩ := p
  by_cases h : k = k'
  · simp [putEntry, h, lookupKey]
  · by_cases h2 : lexLt k k'
    · simp [putEntry, h, h2, lookupKey]
    · simp [putEntry, h, h2, lookupKey, Ne.symm h, ih]

/-- C5: delete_cf on an existing collection and an absent key returns
KeyNotFound and hands back the state unchanged: the read-before-delete fails
before any engine write happens. -/
theorem deleteCf_absent_keyNotFound (st : DBState) (cf : String) (k : Bytes)
    (ents : Entries) (hcf : cfHandle st cf = some ents)
    (habs : lookupKey ents k = none) :
    deleteCf st cf k = (st, .error (.KeyNotFound k)) := by
simp [deleteCf, hcf, habs]

/-- Witness for C5: a concrete one-record collection and a key it lacks. -/
theorem deleteCf_absent_keyNotFound_witness :
    deleteCf stFour "c" [99] = (stFour, .error (.KeyNotFound [99])) :=
deleteCf_absent_keyNotFound stFour "c" [99]
  [([48], [1]), ([49], [2]), ([50], [3]), ([51], [4])] (by decide) (by decide)

/-- C10: the raw delete on the default collection performs no existence check:
it returns ok even for an absent key, and afterwards find reports the key
absent. -/
theorem delete_total_find_none (st : DBState) (k : Bytes) :
    (delete st k).2 = .ok () ∧ find (delete st k).1 k = .ok none := by
refine ⟨rfl, ?_⟩
have h1 : (delete st k).1 = updateCf st "default"
    ((defaultCf st).filter (fun p => decide (p.1 ≠ k))) := rfl
rw [h1]
have h2 : defaultCf (updateCf st "default"
      ((defaultCf st).filter (fun p => decide (p.1 ≠ k)))) =
    (defaultCf st).filter (fun p => decide (p.1 ≠ k)) := by
  unfold defaultCf cfHandle updateCf
  rw [findCf_setCf_self]
  rfl
unfold find
rw [h2, lookupKey_filter_none k _ (fun p hp => by simp [hp])]

/-- C8: insert followed by get returns the inserted value, for every value the
codec round-trips: decoding the encoding gives the value back. -/
theorem insert_get_roundtrip {V : Type} (ser : Serializer V) (st : DBState)
    (k : Bytes) (v : V) (bytes : Bytes)
    (henc : ser.serialize v = .ok bytes)
    (hdec : ser.deserialize bytes = .ok v) :
    (insert ser st k v).2 = .ok () ∧ get ser (insert ser st k v).1 k = .ok v := by
constructor
· simp [insert, henc, save]
· simp [insert, henc, save, get, find, defaultCf, cfHandle, updateCf,
    findCf_setCf_self, lookupKey_putEntry_self, hdec]

/-- Witness for C8 at the concrete codec: value 9 stored under key 7. -/
theorem insert_get_roundtrip_witness :
    (insert natSer stFour [7] 9).2 = .ok () ∧
    get natSer (insert natSer stFour [7] 9).1 [7] = .ok 9 :=
insert_get_roundtrip natSer stFour [7] 9 [9] (by decide) (by decide)

/-- C2 amended: the malformed-expression error InvalidQuery is produced only
after the whole collection has been decoded and converted; given that the
materialization succeeds and the engine rejects the query, the call returns
InvalidQuery with the engine's message. -/
theorem queryCf_malformed_invalidQuery {V J : Type} [DecidableEq J]
    (engine : List J → String → Except String (List J))
    (ser : Serializer V) (toJson : V → Except String J)
    (st : DBState) (cf query : String) (ents : Entries) (docs : List (J × V))
    (e : String)
    (hcf : cfHandle st cf = some ents)
    (hdocs : collectDocs ser toJson ents = .ok docs)
    (heng : engine (docs.map (fun p => p.1)) query = .error e) :
    queryCf engine ser toJson st cf query =
      .error (.InvalidQuery ("JSONPath error: " ++ e)) := by
simp [queryCf, hcf, hdocs, heng]

/-- Witness for the amended C2: an empty collection and a rejected query. -/
theorem queryCf_malformed_invalidQuery_witness :
    queryCf rejectEngine natSer toJsonId (⟨[("c", [])]⟩ : DBState) "c" "$[" =
      .error (.InvalidQuery "JSONPath error: parse error") :=
queryCf_malformed_invalidQuery rejectEngine natSer toJsonId
  (⟨[("c", [])]⟩ : DBState) "c" "$[" [] [] "parse error"
  (by decide) (by decide) (by decide)

/-- C2 as stated fails: the scan precedes query compilation, so with one
undecodable record and an expression the engine rejects outright, query_cf
reports Deserialization instead of InvalidQuery. -/
theorem queryCf_malformed_counterexample :
    queryCf rejectEngine natSer toJsonId stBad "c" "$[" =
      .error (.DeserializationError "bad msgpack") ∧
    rejectEngine [] "$[" = .error "parse error" := by
decide

/-- C9 amended: the window extraction is in bounds exactly when the clamped
start does not exceed the clamped end, the end being the wrapping 64-bit
increment of the parsed to, clamped; in the remaining cases — the parsed from
landing beyond the parsed to plus one within the collection, or the increment
of a to equal to 2^64 - 1 wrapping the end to 0 below a positive start — the
slice indexing panics (modelled as none; a debug build aborts on the overflow
itself before the slice). -/
theorem rangeWindow_isSome_iff (allKeys : List Bytes) (fromStr toStr : String) :
    (rangeWindow allKeys fromStr toStr).isSome ↔
      min ((parseUsize fromStr).getD 0) allKeys.length ≤
        min (((parseUsize toStr).getD allKeys.length + 1) % 2 ^ 64)
          allKeys.length := by
by_cases h : min ((parseUsize fromStr).getD 0) allKeys.length ≤
    min (((parseUsize toStr).getD allKeys.length + 1) % 2 ^ 64) allKeys.length
· simp [rangeWindow, rustSlice, h, min_le_right]
· simp [rangeWindow, rustSlice, h]

/-- C9 as stated fails twice over: with three keys, arguments 2 and 0 give
computed start 2 and computed end 1, so the slice panics; and arguments 1 and
18446744073709551615 (usize::MAX, accepted by parse) wrap the usize increment
to end 0 below start 1, so the call panics as well (in a debug build the
increment itself aborts). -/
theorem rangeWindow_panic_counterexample :
    rangeWindow [[48], [49], [50]] "2" "0" = none ∧
    rangeWindow [[48], [49], [50]] "1" "18446744073709551615" = none := by
decide

theorem putEntry_gt_append (k v : Bytes) (acc : Entries)
    (h : ∀ p ∈ acc, lexLt p.1 k = true) :
    putEntry k v acc = acc ++ [(k, v)] := by
induction acc with
| nil => rfl
| cons p rest ih =>
  obtain ⟨k', v'⟩ := p
  have hlt : lexLt k' k = true := h (k', v') (by simp)
  have hne : k ≠ k' := by
    intro hh
    subst hh
    rw [lexLt_irrefl] at hlt
    exact Bool.noConfusion hlt
  have hnl : lexLt k k' = false := lexLt_asymm k' k hlt
  simp only [putEntry, hne, hnl, if_false, Bool.false_eq_true, ite_false]
  simp only [List.cons_append, List.cons.injEq, true_and]
  exact ih (fun q hq => h q (by simp [hq]))

theorem ingestFile_append (file : List (Bytes × Bytes)) :
    ∀ acc : Entries,
      file.Pairwise (fun x y => lexLt x.1 y.1 = true) →
      (∀ p ∈ file, ∀ q ∈ acc, lexLt q.1 p.1 = true) →
      ingestFile acc file = acc ++ file := by
induction file with
| nil => intro acc _ _; simp [ingestFile]
| cons p rest ih =>
  intro acc hs hgt
  obtain ⟨k, v⟩ := p
  rw [List.pairwise_cons] at hs
  have h1 : putEntry k v acc = acc ++ [(k, v)] :=
    putEntry_gt_append k v acc (fun q hq => hgt (k, v) (by simp) q hq)
  have h2 : ingestFile acc ((k, v) :: rest) = ingestFile (putEntry k v acc) rest := rfl
  rw [h2, h1, ih (acc ++ [(k, v)]) hs.2]
  · simp
  · intro q hq r hr
    rcases List.mem_append.mp hr with hr | hr
    · exact hgt q (by simp [hq]) r hr
    · have : r = (k, v) := by simpa using hr
      subst this
      exact hs.1 q hq

theorem sstPuts_ok (ents : Entries) :
    ∀ prev : Option Bytes,
      ents.Pairwise (fun x y => lexLt x.1 y.1 = true) →
      (∀ p ∈ ents, ∀ q, prev = some q → lexLt q p.1 = true) →
      sstPuts prev ents = .ok ents := by
induction ents with
| nil => intro prev _ _; cases prev <;> rfl
| cons p rest ih =>
  intro prev hs hp
  obtain ⟨k, v⟩ := p
  rw [List.pairwise_cons] at hs
  have hrec : sstPuts (some k) rest = .ok rest :=
    ih (some k) hs.2 (fun q hq r hr => by
      cases hr
      exact hs.1 q hq)
  cases prev with
  | none => simp [sstPuts, hrec]
  | some q =>
    have hq : lexLt q k = true := hp (k, v) (by simp) q rfl
    simp [sstPuts, hq, hrec]

/-- C4: backing up a collection (whose entries sit in strictly ascending raw
key order, the engine iterator's invariant) produces an SST file holding
exactly its records in that ascending order, and restoring that file into an
empty collection yields a collection holding exactly those records. -/
theorem backup_restore_roundtrip (stA stB : DBState) (a b : String)
    (entA : Entries)
    (hA : cfHandle stA a = some entA)
    (hsorted : entA.Pairwise (fun x y => lexLt x.1 y.1 = true))
    (hB : cfHandle stB b = some []) :
    createBackup stA a = .ok entA ∧
    restoreBackup stB b entA = .ok (updateCf stB b entA) ∧
    cfHandle (updateCf stB b entA) b = some entA := by
refine ⟨?_, ?_, ?_⟩
· have h1 : sstPuts none entA = .ok entA :=
    sstPuts_ok entA none hsorted (by intro p _ q hq; exact Option.noConfusion hq)
  simp [createBackup, hA, h1]
· have h2 : ingestFile [] entA = entA := by
    have := ingestFile_append entA [] hsorted (by simp)
    simpa using this
  simp [restoreBackup, hB, h2]
· exact findCf_setCf_self stB.cfs b entA

/-- Witness for C4: a concrete sorted source collection and an empty target. -/
theorem backup_restore_roundtrip_witness :
    createBackup stFour "c" = .ok [([48], [1]), ([49], [2]), ([50], [3]), ([51], [4])] ∧
    restoreBackup stEmptyB "b" [([48], [1]), ([49], [2]), ([50], [3]), ([51], [4])] =
      .ok (updateCf stEmptyB "b"
        [([48], [1]), ([49], [2]), ([50], [3]), ([51], [4])]) ∧
    cfHandle (updateCf stEmptyB "b"
        [([48], [1]), ([49], [2]), ([50], [3]), ([51], [4])]) "b" =
      some [([48], [1]), ([49], [2]), ([50], [3]), ([51], [4])] :=
backup_restore_roundtrip stFour stEmptyB "c" "b"
  [([48], [1]), ([49], [2]), ([50], [3]), ([51], [4])]
  (by decide) (by decide) (by decide)

theorem fetchValues_cons_none {V : Type} (ser : Serializer V) (ents : Entries)
    (k : Bytes) (ks : List Bytes) (hl : lookupKey ents k = none) :
    fetchValues ser ents (k :: ks) = fetchValues ser ents ks := by
simp [fetchValues, hl]

theorem fetchValues_cons_some {V : Type} (ser : Serializer V) (ents : Entries)
    (k : Bytes) (ks : List Bytes) (bytes : Bytes)
    (hl : lookupKey ents k = some bytes) :
    fetchValues ser ents (k :: ks) =
      match ser.deserialize bytes with
      | .error e => .error (.DeserializationError e)
      | .ok v =>
        match fetchValues ser ents ks with
        | .error e => .error e
        | .ok vs => .ok (v :: vs) := by
simp [fetchValues, hl]

theorem fetchValues_append_ok {V : Type} (ser : Serializer V) (ents : Entries)
    (xs : List Bytes) :
    ∀ (ys : List Bytes) (lx ly : List V),
      fetchValues ser ents xs = .ok lx →
      fetchValues ser ents ys = .ok ly →
      fetchValues ser ents (xs ++ ys) = .ok (lx ++ ly) := by
induction xs with
| nil =>
  intro ys lx ly hx hy
  have : lx = [] := by
    have : (Except.ok lx : Except Err (List V)) = .ok ([] : List V) := by
      rw [← hx]; rfl
    simpa using this.symm
  subst this
  simpa using hy
| cons k ks ih =>
  intro ys lx ly hx hy
  rw [List.cons_append]
  cases hl : lookupKey ents k with
  | none =>
    rw [fetchValues_cons_none ser ents k ks hl] at hx
    rw [fetchValues_cons_none ser ents k (ks ++ ys) hl]
    exact ih ys lx ly hx hy
  | some bytes =>
    rw [fetchValues_cons_some ser ents k ks bytes hl] at hx
    rw [fetchValues_cons_some ser ents k (ks ++ ys) bytes hl]
    cases hd : ser.deserialize bytes with
    | error e => rw [hd] at hx; simp at hx
    | ok v =>
      rw [hd] at hx
      cases hr : fetchValues ser ents ks with
      | error e => rw [hr] at hx; simp at hx
      | ok vs =>
        rw [hr] at hx
        simp only at hx
        have hlx : lx = v :: vs := by simpa using hx.symm
        subst hlx
        simp only
        rw [ih ys vs ly hr hy]
        rfl

theorem fetchValues_reverse_ok {V : Type} (ser : Serializer V) (ents : Entries)
    (ks : List Bytes) :
    ∀ l : List V, fetchValues ser ents ks = .ok l →
      fetchValues ser ents ks.reverse = .ok l.reverse := by
induction ks with
| nil =>
  intro l h
  have : l = [] := by
    have h2 : (Except.ok l : Except Err (List V)) = .ok ([] : List V) := by
      rw [← h]; rfl
    simpa using h2.symm
  subst this
  rfl
| cons k ks ih =>
  intro l h
  rw [List.reverse_cons]
  cases hl : lookupKey ents k with
  | none =>
    rw [fetchValues_cons_none ser ents k ks hl] at h
    have hk : fetchValues ser ents [k] = .ok ([] : List V) := by
      simp [fetchValues, hl]
    have := fetchValues_append_ok ser ents ks.reverse [k] l.reverse [] (ih l h) hk
    simpa using this
  | some bytes =>
    rw [fetchValues_cons_some ser ents k ks bytes hl] at h
    cases hd : ser.deserialize bytes with
    | error e => rw [hd] at h; simp at h
    | ok v =>
      rw [hd] at h
      cases hr : fetchValues ser ents ks with
      | error e => rw [hr] at h; simp at h
      | ok vs =>
        rw [hr] at h
        simp only at h
        have hlv : l = v :: vs := by simpa using h.symm
        subst hlv
        have hk : fetchValues ser ents [k] = .ok [v] := by
          simp [fetchValues, hl, hd]
        have := fetchValues_append_ok ser ents ks.reverse [k]
          vs.reverse [v] (ih vs hr) hk
        simpa using this

theorem fetchValues_take_ok {V : Type} (ser : Serializer V) (ents : Entries)
    (ks : List Bytes) :
    ∀ (l : List V) (n : Nat),
      (∀ k ∈ ks, (lookupKey ents k).isSome) →
      fetchValues ser ents ks = .ok l →
      fetchValues ser ents (ks.take n) = .ok (l.take n) := by
induction ks with
| nil =>
  intro l n _ h
  have : l = [] := by
    have h2 : (Except.ok l : Except Err (List V)) = .ok ([] : List V) := by
      rw [← h]; rfl
    simpa using h2.symm
  subst this
  simp [fetchValues]
| cons k ks ih =>
  intro l n hpres h
  obtain ⟨bytes, hl⟩ := Option.isSome_iff_exists.mp (hpres k (by simp))
  rw [fetchValues_cons_some ser ents k ks bytes hl] at h
  cases hd : ser.deserialize bytes with
  | error e => rw [hd] at h; simp at h
  | ok v =>
    rw [hd] at h
    cases hr : fetchValues ser ents ks with
    | error e => rw [hr] at h; simp at h
    | ok vs =>
      rw [hr] at h
      simp only at h
      have hlv : l = v :: vs := by simpa using h.symm
      subst hlv
      cases n with
      | zero => simp [fetchValues]
      | succ m =>
        rw [List.take_succ_cons, List.take_succ_cons]
        rw [fetchValues_cons_some ser ents k (ks.take m) bytes hl]
        rw [hd, ih vs m (fun x hx => hpres x (by simp [hx])) hr]

theorem lookupKey_isSome_of_mem (ents : Entries) (k : Bytes)
    (h : k ∈ ents.map (fun p => p.1)) : (lookupKey ents k).isSome := by
induction ents with
| nil => simp at h
| cons p rest ih =>
  obtain ⟨a, b⟩ := p
  by_cases hk : a = k
  · simp [lookupKey, hk]
  · simp only [List.map_cons, List.mem_cons] at h
    rcases h with h | h
    · exact absurd h.symm hk
    · simpa [lookupKey, hk] using ih h

theorem rustSlice_subset {α : Type} (v : List α) (a b : Nat) (w : List α)
    (h : rustSlice v a b = some w) : ∀ x ∈ w, x ∈ v := by
unfold rustSlice at h
split at h
· intro x hx
  have hw : w = (v.drop a).take (b - a) := by
    have := Option.some.inj h
    exact this.symm
  rw [hw] at hx
  exact List.drop_subset a v (List.take_subset (b - a) (v.drop a) hx)
· exact Option.noConfusion h

theorem getRangeCf_eq {V : Type} (ser : Serializer V) (st : DBState)
    (cf fromStr toStr : String) (limit : Nat) (direction : Direction)
    (ents : Entries) (window : List Bytes)
    (hcf : cfHandle st cf = some ents)
    (hw : rangeWindow (ents.map (fun p => p.1)) fromStr toStr = some window) :
    getRangeCf ser st cf fromStr toStr limit direction =
      some (fetchValues ser ents
        ((match direction with
          | Direction.Forward => window
          | Direction.Reverse => window.reverse).take limit)) := by
simp only [getRangeCf, hcf, hw]

theorem rangeWindow_subset (allKeys : List Bytes) (fromStr toStr : String)
    (w : List Bytes) (h : rangeWindow allKeys fromStr toStr = some w) :
    ∀ x ∈ w, x ∈ allKeys := by
unfold rangeWindow at h
exact rustSlice_subset allKeys _ _ w h

/-- C6: over the same window, with a limit at least the window size, the
Reverse result of get_range_cf is the exact reverse of the Forward result:
the code reverses the selected key window before fetching. -/
theorem getRange_reverse_of_forward {V : Type} (ser : Serializer V) (st : DBState)
    (cf fromStr toStr : String) (limit : Nat) (ents : Entries)
    (w : List Bytes) (l : List V)
    (hcf : cfHandle st cf = some ents)
    (hw : rangeWindow (ents.map (fun p => p.1)) fromStr toStr = some w)
    (hlim : w.length ≤ limit)
    (hfwd : getRangeCf ser st cf fromStr toStr limit .Forward = some (.ok l)) :
    getRangeCf ser st cf fromStr toStr limit .Reverse = some (.ok l.reverse) := by
rw [getRangeCf_eq ser st cf fromStr toStr limit .Forward ents w hcf hw] at hfwd
rw [getRangeCf_eq ser st cf fromStr toStr limit .Reverse ents w hcf hw]
simp only at hfwd ⊢
rw [List.take_of_length_le hlim] at hfwd
rw [List.take_of_length_le (by simpa using hlim)]
have hf : fetchValues ser ents w = .ok l := Option.some.inj hfwd
exact congrArg some (fetchValues_reverse_ok ser ents w l hf)

/-- Witness for C6 at the concrete four-record collection. -/
theorem getRange_reverse_of_forward_witness :
    getRangeCf natSer stFour "c" "0" "999" 10 .Reverse =
      some (.ok ([1, 2, 3, 4] : List Nat).reverse) :=
getRange_reverse_of_forward natSer stFour "c" "0" "999" 10
  [([48], [1]), ([49], [2]), ([50], [3]), ([51], [4])]
  [[48], [49], [50], [51]] [1, 2, 3, 4]
  (by decide) (by decide) (by decide) (by decide)

/-- C7: a successful get_range_cf with a given limit returns exactly the first
limit records of the directed window, i.e. the limit-prefix of the unbounded
result; its length never exceeds the limit, and limit zero yields the empty
sequence. -/
theorem getRange_limit_truncates {V : Type} (ser : Serializer V) (st : DBState)
    (cf fromStr toStr : String) (big limit : Nat) (direction : Direction)
    (ents : Entries) (w : List Bytes) (L : List V)
    (hcf : cfHandle st cf = some ents)
    (hw : rangeWindow (ents.map (fun p => p.1)) fromStr toStr = some w)
    (hbig : w.length ≤ big)
    (hfull : getRangeCf ser st cf fromStr toStr big direction = some (.ok L)) :
    getRangeCf ser st cf fromStr toStr limit direction = some (.ok (L.take limit)) ∧
    (L.take limit).length ≤ limit ∧ (limit = 0 → L.take limit = []) := by
rw [getRangeCf_eq ser st cf fromStr toStr big direction ents w hcf hw] at hfull
rw [getRangeCf_eq ser st cf fromStr toStr limit direction ents w hcf hw]
have hpres : ∀ k ∈ w, (lookupKey ents k).isSome := fun k hk =>
  lookupKey_isSome_of_mem ents k (rangeWindow_subset _ fromStr toStr w hw k hk)
refine ⟨?_, ?_, ?_⟩
· cases direction with
  | Forward =>
    simp only at hfull ⊢
    rw [List.take_of_length_le hbig] at hfull
    have hf : fetchValues ser ents w = .ok L := Option.some.inj hfull
    exact congrArg some (fetchValues_take_ok ser ents w L limit hpres hf)
  | Reverse =>
    simp only at hfull ⊢
    rw [List.take_of_length_le (by simpa using hbig)] at hfull
    have hf : fetchValues ser ents w.reverse = .ok L := Option.some.inj hfull
    have hpres' : ∀ k ∈ w.reverse, (lookupKey ents k).isSome := fun k hk =>
      hpres k (List.mem_reverse.mp hk)
    exact congrArg some (fetchValues_take_ok ser ents w.reverse L limit hpres' hf)
· simp [List.length_take]
· intro h0
  simp [h0]

/-- Witness for C7: the four-record collection with limit 2 returns the first
two records of the forward window. -/
theorem getRange_limit_truncates_witness :
    getRangeCf natSer stFour "c" "0" "999" 2 .Forward =
      some (.ok (([1, 2, 3, 4] : List Nat).take 2)) ∧
    (([1, 2, 3, 4] : List Nat).take 2).length ≤ 2 ∧
    (2 = 0 → ([1, 2, 3, 4] : List Nat).take 2 = []) :=
getRange_limit_truncates natSer stFour "c" "0" "999" 10 2 .Forward
  [([48], [1]), ([49], [2]), ([50], [3]), ([51], [4])]
  [[48], [49], [50], [51]] [1, 2, 3, 4]
  (by decide) (by decide) (by decide) (by decide)

/-- C1 amended: provided the clamped start does not exceed the clamped end —
the end being to plus one in wrapping 64-bit arithmetic, clamped — the window
selected by get_range_cf agrees with the spec's reading: from and to parsed
with defaults 0 and one past the last key, clamped to the collection size,
selecting the half-open ordinal range whose j-th element is the key at
ordinal position from + j. -/
theorem rangeWindow_ordinal_spec (allKeys : List Bytes) (fromStr toStr : String)
    (h : min ((parseUsize fromStr).getD 0) allKeys.length ≤
         min (((parseUsize toStr).getD allKeys.length + 1) % 2 ^ 64)
           allKeys.length) :
    rangeWindow allKeys fromStr toStr = some (specWindow allKeys fromStr toStr) ∧
    ∀ j : Nat,
      (specWindow allKeys fromStr toStr).get? j =
        if min ((parseUsize fromStr).getD 0) allKeys.length + j <
            min (((parseUsize toStr).getD allKeys.length + 1) % 2 ^ 64)
              allKeys.length
        then allKeys.get? (min ((parseUsize fromStr).getD 0) allKeys.length + j)
        else none := by
constructor
· simp only [rangeWindow, rustSlice, specWindow]
  rw [if_pos (And.intro h (min_le_right _ _))]
· intro j
  have hsw : specWindow allKeys fromStr toStr =
      (allKeys.drop (min ((parseUsize fromStr).getD 0) allKeys.length)).take
        (min (((parseUsize toStr).getD allKeys.length + 1) % 2 ^ 64)
            allKeys.length -
          min ((parseUsize fromStr).getD 0) allKeys.length) := rfl
  rw [hsw]
  have hel : min (((parseUsize toStr).getD allKeys.length + 1) % 2 ^ 64)
      allKeys.length ≤ allKeys.length := min_le_right _ _
  by_cases hj : min ((parseUsize fromStr).getD 0) allKeys.length + j <
      min (((parseUsize toStr).getD allKeys.length + 1) % 2 ^ 64) allKeys.length
  · rw [if_pos hj, List.get?_take (by omega), List.get?_drop]
  · rw [if_neg hj, List.get?_eq_none]
    simp only [List.length_take, List.length_drop]
    omega

/-- Witness for the amended C1 at a parseable in-bounds pair of positions. -/
theorem rangeWindow_ordinal_spec_witness :
    rangeWindow [[48], [49], [50]] "1" "2" =
      some (specWindow [[48], [49], [50]] "1" "2") ∧
    ∀ j : Nat,
      (specWindow [[48], [49], [50]] "1" "2").get? j =
        if min ((parseUsize "1").getD 0) ([[48], [49], [50]] : List Bytes).length + j <
            min (((parseUsize "2").getD ([[48], [49], [50]] : List Bytes).length + 1)
                % 2 ^ 64)
              ([[48], [49], [50]] : List Bytes).length
        then ([[48], [49], [50]] : List Bytes).get?
          (min ((parseUsize "1").getD 0) ([[48], [49], [50]] : List Bytes).length + j)
        else none :=
rangeWindow_ordinal_spec [[48], [49], [50]] "1" "2" (by decide)

/-- C1 as stated fails in two ways.  With four keys, from 3 and to 1, the
claim's half-open window [3, 2) is empty, so the call should return an empty
result, yet the slice indexing panics (modelled as none).  And with from 0 and
to 18446744073709551615 (usize::MAX, accepted by parse), the claim's window
[0, min(to+1, 4)) is the whole collection, yet the usize increment wraps the
end to 0 and the call returns the empty result (a debug build aborts on the
overflow instead). -/
theorem getRange_ordinal_counterexample :
    getRangeCf natSer stFour "c" "3" "1" 10 .Forward = none ∧
    specWindow [[48], [49], [50], [51]] "3" "1" = [] ∧
    getRangeCf natSer stFour "c" "0" "18446744073709551615" 10 .Forward =
      some (.ok []) := by
decide

theorem set_append_len {α : Type} (A : List α) (x q : α) :
    ∀ B : List α, (A ++ x :: B).set A.length q = A ++ q :: B := by
induction A with
| nil => intro B; rfl
| cons a A ih => intro B; simp only [List.cons_append, List.length_cons,
    List.set_cons_succ, ih]

theorem swapRemove_mid_perm {α : Type} (A : List α) (p : α) :
    ∀ B : List α, List.Perm (p :: swapRemove (A ++ p :: B) A.length) (A ++ p :: B) := by
intro B
rcases List.eq_nil_or_concat B with hB | ⟨B', q, hB⟩
· subst hB
  have hlast : (A ++ [p]).getLast? = some p := List.getLast?_concat _
  have hset : (A ++ [p]).set A.length p = A ++ [p] := set_append_len A p p []
  simp only [swapRemove, hlast, hset, List.dropLast_concat]
  exact (List.perm_append_singleton p A).symm
· subst hB
  rw [List.concat_eq_append]
  have hlast : (A ++ p :: (B' ++ [q])).getLast? = some q := by
    rw [show A ++ p :: (B' ++ [q]) = (A ++ p :: B') ++ [q] by simp]
    exact List.getLast?_concat _
  have hset : (A ++ p :: (B' ++ [q])).set A.length q = A ++ q :: (B' ++ [q]) :=
    set_append_len A p q (B' ++ [q])
  have hdrop : (A ++ q :: (B' ++ [q])).dropLast = A ++ q :: B' := by
    rw [show A ++ q :: (B' ++ [q]) = (A ++ q :: B') ++ [q] by simp]
    exact List.dropLast_concat
  simp only [swapRemove, hlast, hset, hdrop]
  exact List.Perm.trans
    (List.Perm.cons p (List.Perm.append_left A
      (List.perm_append_singleton q B').symm))
    List.perm_middle.symm

theorem swapRemove_perm {α : Type} (docs : List α) (i : Nat) (p : α)
    (h : docs.get? i = some p) :
    List.Perm (p :: swapRemove docs i) docs := by
obtain ⟨hlt, hget⟩ := List.get?_eq_some.mp h
have hdecomp : docs = docs.take i ++ p :: docs.drop (i + 1) := by
  conv_lhs => rw [← List.take_append_drop i docs]
  rw [List.drop_eq_get_cons hlt, hget]
have hlen : (docs.take i).length = i := List.length_take_of_le (le_of_lt hlt)
have := swapRemove_mid_perm (docs.take i) p (docs.drop (i + 1))
rw [hlen] at this
rw [hdecomp]
exact this

theorem findMatchIdx_get {V J : Type} [DecidableEq J] (m : J) :
    ∀ (docs : List (J × V)) (i : Nat), findMatchIdx m docs = some i →
      ∃ p, docs.get? i = some p ∧ p.1 = m := by
intro docs
induction docs with
| nil => intro i h; exact Option.noConfusion h
| cons p rest ih =>
  intro i h
  by_cases hp : p.1 = m
  · rw [show findMatchIdx m (p :: rest) = some 0 by simp [findMatchIdx, hp]] at h
    obtain rfl : (0 : Nat) = i := Option.some.inj h
    exact ⟨p, rfl, hp⟩
  · rw [show findMatchIdx m (p :: rest) = (findMatchIdx m rest).map (· + 1) by
      simp [findMatchIdx, hp]] at h
    rw [Option.map_eq_some'] at h
    obtain ⟨j, hf, hij⟩ := h
    obtain ⟨q, hq, hq1⟩ := ih j hf
    subst hij
    exact ⟨q, hq, hq1⟩

theorem findMatchIdx_isSome_of_mem {V J : Type} [DecidableEq J] (m : J) :
    ∀ docs : List (J × V), m ∈ docs.map (fun p => p.1) →
      (findMatchIdx m docs).isSome := by
intro docs
induction docs with
| nil => intro h; simp at h
| cons p rest ih =>
  intro h
  by_cases hp : p.1 = m
  · simp [findMatchIdx, hp]
  · simp only [List.map_cons, List.mem_cons] at h
    rcases h with h | h
    · exact absurd h.symm hp
    · have := ih h
      simp only [findMatchIdx, hp, ite_false, if_false]
      cases hf : findMatchIdx m rest with
      | none => rw [hf] at this; exact absurd this (by simp)
      | some j => simp

theorem selectMatches_spec {V J : Type} [DecidableEq J] :
    ∀ (matched : List J) (docs : List (J × V)),
      List.Perm matched (docs.map (fun p => p.1)) →
      ∃ picked : List (J × V),
        selectMatches matched docs = picked.map (fun p => p.2) ∧
        picked.map (fun p => p.1) = matched ∧
        List.Perm picked docs := by
intro matched
induction matched with
| nil =>
  intro docs hm
  have h1 : docs.map (fun p => p.1) = [] := (List.Perm.eq_nil hm.symm)
  have h2 : docs = [] := List.map_eq_nil.mp h1
  exact ⟨[], by simp [selectMatches], rfl, by simp [h2]⟩
| cons m ms ih =>
  intro docs hm
  have hmem : m ∈ docs.map (fun p => p.1) :=
    hm.subset (List.mem_cons_self m ms)
  obtain ⟨i, hf⟩ := Option.isSome_iff_exists.mp
    (findMatchIdx_isSome_of_mem m docs hmem)
  obtain ⟨p, hget, hp1⟩ := findMatchIdx_get m docs i hf
  have hperm : List.Perm (p :: swapRemove docs i) docs :=
    swapRemove_perm docs i p hget
  have hms : List.Perm ms ((swapRemove docs i).map (fun p => p.1)) := by
    have h1 : List.Perm (p.1 :: (swapRemove docs i).map (fun p => p.1))
        (docs.map (fun p => p.1)) := by
      simpa using hperm.map (fun p => p.1)
    rw [hp1] at h1
    exact (hm.trans h1.symm).cons_inv
  obtain ⟨picked', hsel, hfst, hpicked⟩ := ih (swapRemove docs i) hms
  refine ⟨p :: picked', ?_, ?_, ?_⟩
  · have hget2 : docs[i]? = some p := by
      rw [← List.get?_eq_getElem?]
      exact hget
    rw [show selectMatches (m :: ms) docs =
        p.2 :: selectMatches ms (swapRemove docs i) by
      simp [selectMatches, hf, hget2]]
    simp [hsel]
  · simp [hfst, hp1]
  · exact (hpicked.cons p).trans hperm

theorem selectMatches_map_self {V J : Type} [DecidableEq J] (docs : List (J × V))
    (hinj : ∀ p ∈ docs, ∀ q ∈ docs, p.1 = q.1 → p.2 = q.2) :
    selectMatches (docs.map (fun p => p.1)) docs = docs.map (fun p => p.2) := by
obtain ⟨picked, hsel, hfst, hperm⟩ :=
  selectMatches_spec (docs.map (fun p => p.1)) docs (List.Perm.refl _)
rw [hsel]
apply List.ext_get?
intro n
rw [List.get?_map, List.get?_map]
cases hp : picked.get? n with
| none =>
  have hlen : picked.length = docs.length := by
    have := congrArg List.length hfst
    simpa using this
  have : docs.get? n = none := by
    rw [List.get?_eq_none] at hp ⊢
    omega
  rw [this]
| some pp =>
  have hlen : picked.length = docs.length := by
    have := congrArg List.length hfst
    simpa using this
  have hnlt : n < docs.length := by
    have := (List.get?_eq_some.mp hp).1
    omega
  have hdpex : ∃ dp, docs.get? n = some dp := by
    cases hd : docs.get? n with
    | none => rw [List.get?_eq_none] at hd; omega
    | some dp => exact ⟨dp, rfl⟩
  obtain ⟨dp, hdp⟩ := hdpex
  rw [hdp]
  have hfst1 : pp.1 = dp.1 := by
    have h1 := congrArg (fun l => l.get? n) hfst
    simp only [List.get?_map] at h1
    rw [hp, hdp] at h1
    simpa using h1
  have hppmem : pp ∈ docs := hperm.subset (List.get?_mem hp)
  have hdpmem : dp ∈ docs := List.get?_mem hdp
  have := hinj pp hppmem dp hdpmem hfst1
  simp [this]

theorem fetchValues_entry_ne {V : Type} (ser : Serializer V) (k bytes : Bytes)
    (rest : Entries) :
    ∀ ks : List Bytes, (∀ x ∈ ks, x ≠ k) →
      fetchValues ser ((k, bytes) :: rest) ks = fetchValues ser rest ks := by
intro ks
induction ks with
| nil => intro _; rfl
| cons x xs ih =>
  intro h
  have hx : x ≠ k := h x (by simp)
  have hlk : lookupKey ((k, bytes) :: rest) x = lookupKey rest x := by
    have hkx : ¬ k = x := fun hh => hx hh.symm
    simp [lookupKey, hkx]
  have htail := ih (fun y hy => h y (by simp [hy]))
  cases hl : lookupKey rest x with
  | none =>
    rw [fetchValues_cons_none ser _ x xs (hlk.trans hl),
        fetchValues_cons_none ser rest x xs hl]
    exact htail
  | some b2 =>
    rw [fetchValues_cons_some ser _ x xs b2 (hlk.trans hl),
        fetchValues_cons_some ser rest x xs b2 hl]
    simp only [htail]

theorem collectDocs_cons {V J : Type} (ser : Serializer V)
    (toJson : V → Except String J) (k bytes : Bytes) (rest : Entries) :
    collectDocs ser toJson ((k, bytes) :: rest) =
      match ser.deserialize bytes with
      | .error e => .error (.DeserializationError e)
      | .ok v =>
        match toJson v with
        | .error e => .error (.SerializationError e)
        | .ok j =>
          match collectDocs ser toJson rest with
          | .error e => .error e
          | .ok docs => .ok ((j, v) :: docs) := rfl

theorem fetchValues_of_collectDocs {V J : Type} (ser : Serializer V)
    (toJson : V → Except String J) :
    ∀ (ents : Entries) (docs : List (J × V)),
      collectDocs ser toJson ents = .ok docs →
      (ents.map (fun p => p.1)).Nodup →
      fetchValues ser ents (ents.map (fun p => p.1)) =
        .ok (docs.map (fun p => p.2)) := by
intro ents
induction ents with
| nil =>
  intro docs h _
  have : docs = [] := by
    have h2 : (Except.ok docs : Except Err (List (J × V))) = .ok [] := by
      rw [← h]; rfl
    simpa using h2.symm
  subst this
  rfl
| cons ent rest ih =>
  intro docs h hnd
  obtain ⟨k, bytes⟩ := ent
  rw [collectDocs_cons] at h
  cases hd : ser.deserialize bytes with
  | error e => rw [hd] at h; simp at h
  | ok v =>
    rw [hd] at h
    simp only at h
    cases hj : toJson v with
    | error e => rw [hj] at h; simp at h
    | ok j =>
      rw [hj] at h
      simp only at h
      cases hc : collectDocs ser toJson rest with
      | error e => rw [hc] at h; simp at h
      | ok docs' =>
        rw [hc] at h
        simp only at h
        have hdocs : docs = (j, v) :: docs' := by simpa using h.symm
        subst hdocs
        simp only [List.map_cons, List.map_cons] at hnd ⊢
        rw [List.nodup_cons] at hnd
        have hhead : lookupKey ((k, bytes) :: rest) k = some bytes := by
          simp [lookupKey]
        rw [fetchValues_cons_some ser _ k (rest.map (fun p => p.1)) bytes hhead]
        rw [hd]
        rw [fetchValues_entry_ne ser k bytes rest (rest.map (fun p => p.1))
          (fun x hx => fun hxk => hnd.1 (hxk ▸ hx))]
        rw [ih docs' hc hnd.2]

/-- C3 amended: provided the JSON conversion is injective on the collection's
records (equal JSON images imply equal records), the query with the root
wildcard — whose engine semantics select every element of the materialized
array in order — returns exactly the records of the full forward range scan,
in the same order.  The size bound is the usize representability of any real
collection (a Vec cannot hold 2^64 - 1 elements), under which the unparseable
to's default end, len + 1, does not wrap. -/
theorem queryCf_star_eq_fullScan {V J : Type} [DecidableEq J]
    (engine : List J → String → Except String (List J))
    (ser : Serializer V) (toJson : V → Except String J)
    (st : DBState) (cf query toStr : String) (limit : Nat)
    (ents : Entries) (docs : List (J × V))
    (hcf : cfHandle st cf = some ents)
    (hlen : ents.length + 1 < 2 ^ 64)
    (hnodup : (ents.map (fun p => p.1)).Nodup)
    (hdocs : collectDocs ser toJson ents = .ok docs)
    (hstar : engine (docs.map (fun p => p.1)) query = .ok (docs.map (fun p => p.1)))
    (hinj : ∀ p ∈ docs, ∀ q ∈ docs, p.1 = q.1 → p.2 = q.2)
    (hto : parseUsize toStr = none)
    (hlim : ents.length ≤ limit) :
    queryCf engine ser toJson st cf query = .ok (docs.map (fun p => p.2)) ∧
    getRangeCf ser st cf "0" toStr limit .Forward =
      some (.ok (docs.map (fun p => p.2))) := by
constructor
· simp [queryCf, hcf, hdocs, hstar, selectMatches_map_self docs hinj]
· have h0 : parseUsize "0" = some 0 := by decide
  have hwrap : ((ents.map (fun p => p.1)).length + 1) % 2 ^ 64 =
      (ents.map (fun p => p.1)).length + 1 :=
    Nat.mod_eq_of_lt (by simpa using hlen)
  have hmin : min (((ents.map (fun p => p.1)).length + 1) % 2 ^ 64)
      (ents.map (fun p => p.1)).length = (ents.map (fun p => p.1)).length := by
    rw [hwrap]
    exact Nat.min_eq_right (Nat.le_succ _)
  have hle : ents.length ≤ (ents.length + 1) % 18446744073709551616 := by
    have hpow : (2 : Nat) ^ 64 = 18446744073709551616 := by norm_num
    rw [← hpow, Nat.mod_eq_of_lt hlen]
    exact Nat.le_succ _
  have hw : rangeWindow (ents.map (fun p => p.1)) "0" toStr =
      some (ents.map (fun p => p.1)) := by
    simp [rangeWindow, rustSlice, h0, hto, hmin, hle]
  rw [getRangeCf_eq ser st cf "0" toStr limit .Forward ents _ hcf hw]
  simp only
  rw [List.take_of_length_le (by simpa using hlim)]
  exact congrArg some (fetchValues_of_collectDocs ser toJson ents docs hdocs hnodup)

/-- Witness for the amended C3: the identity JSON image on the four-record
collection; query and full forward scan agree. -/
theorem queryCf_star_eq_fullScan_witness :
    queryCf starEngine natSer toJsonId stFour "c" "$[*]" =
      .ok (([(1, 1), (2, 2), (3, 3), (4, 4)] : List (Nat × Nat)).map (fun p => p.2)) ∧
    getRangeCf natSer stFour "c" "0" "end" 100 .Forward =
      some (.ok (([(1, 1), (2, 2), (3, 3), (4, 4)] : List (Nat × Nat)).map
        (fun p => p.2))) :=
queryCf_star_eq_fullScan starEngine natSer toJsonId stFour "c" "$[*]" "end" 100
  [([48], [1]), ([49], [2]), ([50], [3]), ([51], [4])]
  [(1, 1), (2, 2), (3, 3), (4, 4)]
  (by decide) (by decide) (by decide) (by decide) (by decide) (by decide)
  (by decide) (by decide)

/-- C3 as stated fails: with a JSON conversion collapsing distinct records to
equal images (values 2 and 4 both map to image 0), the swap_remove match loop
returns the records out of order, [1, 4, 3, 2], while the full forward scan
returns [1, 2, 3, 4]. -/
theorem queryCf_star_counterexample :
    queryCf starEngine natSer toJsonMod2 stFour "c" "$[*]" = .ok [1, 4, 3, 2] ∧
    getRangeCf natSer stFour "c" "0" "end" 100 .Forward =
      some (.ok [1, 2, 3, 4]) := by
decide

end RocksDBClient
